import Mathlib

/-!
Verification development for the BTC multi-source export pipeline
(`export_btc.py`): a shallow embedding of the provider adapters'
normalization, the merge/deduplication logic of `merge_sources`, the
CSV sink `save_csv`, and the CryptoCompare pagination loop, together
with theorems about the spec's testable properties.

Modelling conventions:
* calendar dates are day indices `Nat` (a date object is determined by
  `timestamp / 86400` seconds, resp. `/ 86400000` milliseconds);
* prices are `Int` (the float values carried by the code are opaque to
  the properties here: only positivity, equality and provenance matter);
* pandas `DataFrame`s of the canonical schema are `List Row`;
* `drop_duplicates(subset := date, keep := first)` is `dedupBy Row.date`;
* `sort_values(date)` is insertion sort by date (after dedup the dates
  are unique, so any ascending sort yields the same list).
-/

/-- One row of the canonical schema: columns `date`, `Open`, `Close`
(source: the dicts/frames built by the three fetchers). -/
structure Row where
  date : Nat
  Open : Int
  Close : Int
deriving DecidableEq, Repr

/-- Keep-first deduplication by a key, as performed by pandas
`drop_duplicates` with `keep := first`: a row is retained iff no earlier
row has the same key.  `seen` accumulates the keys of the rows already
retained. -/
def dedupByAux (key : α → Nat) (seen : List Nat) : List α → List α
  | [] => []
  | x :: xs =>
    if key x ∈ seen then dedupByAux key seen xs
    else x :: dedupByAux key (key x :: seen) xs

/-- `drop_duplicates(subset := key, keep := first)`. -/
def dedupBy (key : α → Nat) (l : List α) : List α :=
  dedupByAux key [] l

/-- Ascending sort by date, as performed by `sort_values(date)`. -/
def sortByDate (l : List Row) : List Row :=
  List.insertionSort (fun a b => a.date ≤ b.date) l

/-- `merge_sources` lines 207-212: concatenate the successful sources'
frames in priority order, drop duplicate dates keeping the first
occurrence, and sort ascending by date. -/
def mergeRows (srcs : List (List Row)) : List Row :=
  sortByDate (dedupBy Row.date srcs.flatten)

/-- `merge_sources` lines 218-221: the per-source contribution printed
in the report is the cardinality of the intersection of the source's
date set with the merged frame's date set
(`len(set(source_df.date) & set(merged.date))`). -/
def contribution (src merged : List Row) : Nat :=
  ((src.map Row.date).toFinset ∩ (merged.map Row.date).toFinset).card

/-- A raw Yahoo row after the column selection: each of the three fields
may be missing (`NaN`), in which case `dropna` removes the row. -/
structure YRaw where
  date : Option Nat
  Open : Option Int
  Close : Option Int
deriving DecidableEq, Repr

/-- `fetch_btc_yfinance` lines 38-44: select the `date`, `Open`, `Close`
columns and drop rows with a missing field.  No positivity filter and no
duplicate-date filter is applied. -/
def yahooNormalize (payload : List YRaw) : List Row :=
  payload.filterMap fun r =>
    match r.date, r.Open, r.Close with
    | some d, some o, some c => some ⟨d, o, c⟩
    | _, _, _ => none

/-- One item of the CryptoCompare `histoday` payload (fields `time`,
`open`, `close`; capitalised here because `open` is reserved in Lean). -/
structure CCItem where
  time : Nat
  Open : Int
  Close : Int
deriving DecidableEq, Repr

/-- `fetch_btc_cryptocompare` lines 113-123: keep items with
`close > 0`, convert `time` (epoch seconds) to a date, then
`drop_duplicates(date)` and `sort_values(date)`.  Note the filter
checks only `close`, not `open`. -/
def ccNormalize (payload : List CCItem) : List Row :=
  sortByDate (dedupBy Row.date (payload.filterMap fun it =>
    if 0 < it.Close then some ⟨it.time / 86400, it.Open, it.Close⟩ else none))

/-- One point of the CoinGecko `market_chart` payload: an epoch
timestamp in milliseconds and a price. -/
structure CGRaw where
  timestamp : Nat
  price : Int
deriving DecidableEq, Repr

/-- The calendar date of a CoinGecko point
(`to_datetime(timestamp, unit := ms).dt.date`). -/
def cgDate (p : CGRaw) : Nat :=
  p.timestamp / 86400000

/-- The row emitted for one `groupby(date)` group: `Open` is the price
of the group's first point in payload order (`grouped.first()`), `Close`
the price of its last (`grouped.last()`). -/
def cgRowAt (payload : List CGRaw) (d : Nat) : Option Row :=
  match (payload.filter fun p => cgDate p == d).head?,
        (payload.filter fun p => cgDate p == d).getLast? with
  | some f, some l => some ⟨d, f.price, l.price⟩
  | _, _ => none

/-- `fetch_btc_coingecko_free` lines 158-166: group points by date
(pandas `groupby` sorts the group keys ascending and keeps the points of
each group in payload order) and emit one row per date via `cgRowAt`. -/
def cgNormalize (payload : List CGRaw) : List Row :=
  (List.insertionSort (fun a b => a ≤ b) (dedupBy id (payload.map cgDate))).filterMap
    (cgRowAt payload)

/-- The price of the chronologically first point of a date.  Modelled
from the spec's words (section 4.1: `open = first point's price by
timestamp order`) for comparison with `cgNormalize`, which takes the
first point in payload order instead. -/
def chronFirstPrice (payload : List CGRaw) (d : Nat) : Option Int :=
  (List.insertionSort (fun a b => a.timestamp ≤ b.timestamp)
    (payload.filter fun p => cgDate p == d)).head?.map CGRaw.price

/-- `merge_sources` lines 185-198: a source participates iff its fetch
returned a frame (`not None`) that is non-empty. -/
def successfulSources (results : List (Option (List Row))) : List (List Row) :=
  results.filterMap fun o =>
    match o with
    | none => none
    | some df => if df.isEmpty then none else some df

/-- `merge_sources` lines 185-223: with no participating source the
function returns `None` (the `NoDataAvailable` signal), otherwise the
merge of the participating sources in priority order. -/
def mergeSources (results : List (Option (List Row))) : Option (List Row) :=
  if (successfulSources results).isEmpty then none
  else some (mergeRows (successfulSources results))

/-- One line of the persisted CSV artifact, as a list of cells.  The
header line is `[date, Open, Close]`; a data line holds the decimal
renderings of the three fields. -/
def rowLine (r : Row) : List String :=
  [toString r.date, toString r.Open, toString r.Close]

/-- The full serialization `to_csv` produces: header line then one line
per row, in frame order. -/
def serialize (df : List Row) : List (List String) :=
  ["date", "Open", "Close"] :: df.map rowLine

/-- The destination artifact: `none` when the file does not exist,
otherwise its lines. -/
structure World where
  file : Option (List (List String))
deriving DecidableEq, Repr

/-- What `read_csv` exposes of the artifact to the validation code:
its column names and its data-row count. -/
structure Frame where
  cols : List String
  nrows : Nat
deriving DecidableEq, Repr

/-- `pd.read_csv` on the artifact: raises (`none`) when the file is
absent or empty, otherwise parses the header line as the columns and
counts the remaining lines as rows. -/
def readCsv (w : World) : Option Frame :=
  match w.file with
  | none => none
  | some [] => none
  | some (h :: rest) => some { cols := h, nrows := rest.length }

/-- `save_csv` lines 238-251, the read-back pass: it only prints the
row count, column list, period and year span of the re-read frame.  The
pass raises (and the surrounding handler exits non-zero) exactly when
`test[date]` is not a column (`KeyError` at line 243) or the frame has
zero data rows (`years[0]`, `IndexError` at line 251).  No comparison
against the in-memory frame is performed; fewer than 365 rows only
prints a warning (line 245-246). -/
def validateRaises (t : Frame) : Bool :=
  !(decide ("date" ∈ t.cols)) || t.nrows == 0

/-- `save_csv` lines 229-255.  `df := none` models being handed the
`None` of a failed merge; `failAt := some k` models `to_csv` raising
after emitting `k` lines (the file is opened for truncating overwrite at
the destination path, so the prefix written so far replaces the previous
content).  The returned `Nat` is the process exit code (`sys.exit(1)` on
the empty check or inside the `except` handler, 0 otherwise). -/
def saveCsv (df : Option (List Row)) (failAt : Option Nat) (w : World) : World × Nat :=
  match df with
  | none => (w, 1)
  | some rows =>
    if rows.isEmpty then (w, 1)
    else
      match failAt with
      | some k => ({ file := some ((serialize rows).take k) }, 1)
      | none =>
        let w2 : World := { file := some (serialize rows) }
        match readCsv w2 with
        | none => (w2, 1)
        | some t => (w2, if validateRaises t then 1 else 0)

/-- A CryptoCompare response: either `Response != Success`, or the
`Data.Data` price list of the page. -/
inductive CCResp where
  | failure : CCResp
  | page : List CCItem → CCResp
deriving DecidableEq, Repr

/-- `fetch_btc_cryptocompare` lines 75-107, the pagination loop.
`resp cur toTs` is the provider's response to the request issued with
window start `cur` (seconds); the request's `toTs` parameter is
`min (cur + 2000 * 86400) endD` as computed at line 77.  The loop breaks
on a non-success response or an empty page, otherwise appends the page
and advances the window start to one day past the page's last
timestamp; it exits when the start reaches `endD` (now).  `fuel` bounds
the iterations so the function is total; `none` means the fuel ran out
before the loop exited. -/
def ccLoop (resp : Nat → Nat → CCResp) (endD : Nat) :
    Nat → Nat → List CCItem → Option (List CCItem)
  | 0, _, _ => none
  | fuel + 1, current, acc =>
    if current < endD then
      match resp current (min (current + 2000 * 86400) endD) with
      | CCResp.failure => some acc
      | CCResp.page [] => some acc
      | CCResp.page (p :: ps) =>
        ccLoop resp endD fuel
          (((p :: ps).getLast (List.cons_ne_nil p ps)).time + 86400)
          (acc ++ p :: ps)
    else some acc

/-! ### Lemmas about keep-first deduplication -/

theorem dedupByAux_sublist (key : α → Nat) :
    ∀ (l : List α) (seen : List Nat), (dedupByAux key seen l).Sublist l := by
  intro l
  induction l with
  | nil => intro seen; exact List.Sublist.refl _
  | cons x xs ih =>
    intro seen
    rw [dedupByAux]
    by_cases hx : key x ∈ seen
    · rw [if_pos hx]
      exact (ih seen).trans (List.sublist_cons_self x xs)
    · rw [if_neg hx]
      exact (ih (key x :: seen)).cons₂ x

theorem mem_of_mem_dedupByAux {key : α → Nat} {seen : List Nat} {l : List α} {a : α}
    (h : a ∈ dedupByAux key seen l) : a ∈ l :=
  (dedupByAux_sublist key l seen).subset h

theorem key_not_seen_of_mem_dedupByAux (key : α → Nat) :
    ∀ {l : List α} {seen : List Nat} {a : α}, a ∈ dedupByAux key seen l → key a ∉ seen := by
  intro l
  induction l with
  | nil => intro seen a h; exact absurd h (List.not_mem_nil a)
  | cons x xs ih =>
    intro seen a h
    rw [dedupByAux] at h
    by_cases hx : key x ∈ seen
    · rw [if_pos hx] at h
      exact ih h
    · rw [if_neg hx] at h
      rcases List.mem_cons.mp h with rfl | h'
      · exact hx
      · exact fun hs => ih h' (List.mem_cons_of_mem _ hs)

theorem dedupByAux_pairwise (key : α → Nat) :
    ∀ (l : List α) (seen : List Nat),
      (dedupByAux key seen l).Pairwise (fun a b => key a ≠ key b) := by
  intro l
  induction l with
  | nil => intro seen; exact List.Pairwise.nil
  | cons x xs ih =>
    intro seen
    rw [dedupByAux]
    by_cases hx : key x ∈ seen
    · rw [if_pos hx]; exact ih seen
    · rw [if_neg hx]
      refine List.Pairwise.cons ?_ (ih (key x :: seen))
      intro b hb hcontra
      exact key_not_seen_of_mem_dedupByAux key hb (hcontra ▸ List.mem_cons_self _ _)

theorem dedupBy_pairwise (key : α → Nat) (l : List α) :
    (dedupBy key l).Pairwise (fun a b => key a ≠ key b) :=
  dedupByAux_pairwise key l []

theorem find?_dedupByAux (key : α → Nat) (d : Nat) :
    ∀ (l : List α) (seen : List Nat), d ∉ seen →
      (dedupByAux key seen l).find? (fun a => key a == d)
        = l.find? (fun a => key a == d) := by
  intro l
  induction l with
  | nil => intro seen _; rfl
  | cons x xs ih =>
    intro seen hd
    rw [dedupByAux]
    by_cases hx : key x ∈ seen
    · have hxd : ¬(key x == d) = true := by
        intro hc
        exact hd (beq_iff_eq.mp hc ▸ hx)
      rw [if_pos hx, @List.find?_cons_of_neg _ (fun a => key a == d) x xs hxd]
      exact ih seen hd
    · rw [if_neg hx]
      by_cases hxd : (key x == d) = true
      · rw [@List.find?_cons_of_pos _ (fun a => key a == d) x _ hxd,
          @List.find?_cons_of_pos _ (fun a => key a == d) x xs hxd]
      · rw [@List.find?_cons_of_neg _ (fun a => key a == d) x _ hxd,
          @List.find?_cons_of_neg _ (fun a => key a == d) x xs hxd]
        refine ih (key x :: seen) ?_
        intro hc
        rcases List.mem_cons.mp hc with h | h
        · exact hxd (beq_iff_eq.mpr h.symm)
        · exact hd h

theorem find?_dedupBy (key : α → Nat) (d : Nat) (l : List α) :
    (dedupBy key l).find? (fun a => key a == d) = l.find? (fun a => key a == d) :=
  find?_dedupByAux key d l [] (List.not_mem_nil d)

theorem eq_of_key_unique {key : α → Nat} :
    ∀ {l : List α}, l.Pairwise (fun a b => key a ≠ key b) →
      ∀ {a b : α}, a ∈ l → b ∈ l → key a = key b → a = b := by
  intro l hl
  induction hl with
  | nil => intro a b ha _ _; exact absurd ha (List.not_mem_nil a)
  | cons hx _ ih =>
    intro a b ha hb hk
    rcases List.mem_cons.mp ha with rfl | ha'
    · rcases List.mem_cons.mp hb with rfl | hb'
      · rfl
      · exact absurd hk (hx b hb')
    · rcases List.mem_cons.mp hb with rfl | hb'
      · exact absurd hk.symm (hx a ha')
      · exact ih ha' hb' hk

theorem find?_eq_of_perm_unique (key : α → Nat) (d : Nat) {l l' : List α}
    (hperm : l.Perm l') (hp : l.Pairwise (fun a b => key a ≠ key b)) :
    l'.find? (fun a => key a == d) = l.find? (fun a => key a == d) := by
  cases hfl : l.find? (fun a => key a == d) with
  | some a =>
    have ha : a ∈ l := List.mem_of_find?_eq_some hfl
    have hpa := List.find?_some hfl
    have hex : ∃ x ∈ l', (fun y => key y == d) x = true := ⟨a, hperm.mem_iff.mp ha, hpa⟩
    obtain ⟨b, hb⟩ := Option.isSome_iff_exists.mp (List.find?_isSome.mpr hex)
    have hbmem : b ∈ l := hperm.mem_iff.mpr (List.mem_of_find?_eq_some hb)
    have hkb : key b = d := by simpa using List.find?_some hb
    have hka : key a = d := by simpa using hpa
    have hba : b = a := by
      refine eq_of_key_unique hp hbmem ha ?_
      rw [hkb, hka]
    rw [hb, hba]
  | none =>
    rw [List.find?_eq_none] at hfl ⊢
    intro x hx
    exact hfl x (hperm.mem_iff.mpr hx)

theorem mem_map_key_dedupBy (key : α → Nat) (d : Nat) (l : List α) :
    d ∈ (dedupBy key l).map key ↔ d ∈ l.map key := by
  constructor
  · intro h
    obtain ⟨a, ha, rfl⟩ := List.mem_map.mp h
    exact List.mem_map.mpr ⟨a, mem_of_mem_dedupByAux ha, rfl⟩
  · intro h
    obtain ⟨a, ha, rfl⟩ := List.mem_map.mp h
    have hex : ∃ x ∈ l, (key x == key a) = true := ⟨a, ha, beq_self_eq_true _⟩
    obtain ⟨b, hb⟩ := Option.isSome_iff_exists.mp (List.find?_isSome.mpr hex)
    rw [← find?_dedupBy key (key a) l] at hb
    have hkb : key b = key a := by simpa using List.find?_some hb
    exact List.mem_map.mpr ⟨b, List.mem_of_find?_eq_some hb, hkb⟩

theorem dedupByAux_eq_self (key : α → Nat) :
    ∀ {l : List α} {seen : List Nat}, l.Pairwise (fun a b => key a ≠ key b) →
      (∀ a ∈ l, key a ∉ seen) → dedupByAux key seen l = l := by
  intro l
  induction l with
  | nil => intro seen _ _; rfl
  | cons x xs ih =>
    intro seen hp hs
    obtain ⟨hx, hxs⟩ := List.pairwise_cons.mp hp
    rw [dedupByAux, if_neg (hs x (List.mem_cons_self x xs))]
    congr 1
    refine ih hxs ?_
    intro a ha hc
    rcases List.mem_cons.mp hc with h | h
    · exact hx a ha h.symm
    · exact hs a (List.mem_cons_of_mem x ha) h

theorem dedupByAux_eq_nil (key : α → Nat) :
    ∀ (l : List α) (seen : List Nat), (∀ a ∈ l, key a ∈ seen) → dedupByAux key seen l = [] := by
  intro l
  induction l with
  | nil => intro seen _; rfl
  | cons x xs ih =>
    intro seen h
    rw [dedupByAux, if_pos (h x (List.mem_cons_self x xs))]
    exact ih seen fun a ha => h a (List.mem_cons_of_mem x ha)

theorem dedupByAux_append_absorb (key : α → Nat) :
    ∀ (xs ys : List α) (seen : List Nat),
      (∀ y ∈ ys, key y ∈ seen ∨ ∃ x ∈ xs, key y = key x) →
      dedupByAux key seen (xs ++ ys) = dedupByAux key seen xs := by
  intro xs
  induction xs with
  | nil =>
    intro ys seen h
    have h' : ∀ y ∈ ys, key y ∈ seen := by
      intro y hy
      rcases h y hy with hs | ⟨x, hx, _⟩
      · exact hs
      · exact absurd hx (List.not_mem_nil x)
    rw [List.nil_append]
    exact dedupByAux_eq_nil key ys seen h'
  | cons x xs' ih =>
    intro ys seen h
    rw [List.cons_append, dedupByAux, dedupByAux]
    by_cases hx : key x ∈ seen
    · rw [if_pos hx, if_pos hx]
      refine ih ys seen ?_
      intro y hy
      rcases h y hy with hs | ⟨x', hx', hk⟩
      · exact Or.inl hs
      · rcases List.mem_cons.mp hx' with rfl | hx''
        · exact Or.inl (hk ▸ hx)
        · exact Or.inr ⟨x', hx'', hk⟩
    · rw [if_neg hx, if_neg hx]
      congr 1
      refine ih ys (key x :: seen) ?_
      intro y hy
      rcases h y hy with hs | ⟨x', hx', hk⟩
      · exact Or.inl (List.mem_cons_of_mem _ hs)
      · rcases List.mem_cons.mp hx' with rfl | hx''
        · exact Or.inl (hk ▸ List.mem_cons_self _ _)
        · exact Or.inr ⟨x', hx'', hk⟩

theorem find?_append_of_none {l₁ l₂ : List α} {p : α → Bool}
    (h : ∀ x ∈ l₁, ¬p x = true) : (l₁ ++ l₂).find? p = l₂.find? p := by
  induction l₁ with
  | nil => rfl
  | cons x xs ih =>
    rw [List.cons_append, List.find?_cons_of_neg _ (h x (List.mem_cons_self x xs))]
    exact ih fun y hy => h y (List.mem_cons_of_mem x hy)

theorem find?_append_of_some {l₁ l₂ : List α} {p : α → Bool} {a : α}
    (h : l₁.find? p = some a) : (l₁ ++ l₂).find? p = some a := by
  induction l₁ with
  | nil => simp [List.find?] at h
  | cons x xs ih =>
    by_cases hx : p x = true
    · rw [List.find?_cons_of_pos _ hx] at h
      rw [List.cons_append, List.find?_cons_of_pos _ hx]
      exact h
    · rw [List.find?_cons_of_neg _ hx] at h
      rw [List.cons_append, List.find?_cons_of_neg _ hx]
      exact ih h

/-! ### Lemmas about the merge -/

theorem sortByDate_perm (l : List Row) : (sortByDate l).Perm l :=
  List.perm_insertionSort _ l

theorem mergeRows_pairwise (srcs : List (List Row)) :
    (mergeRows srcs).Pairwise (fun a b => a.date ≠ b.date) :=
  (List.Perm.pairwise_iff (fun h => Ne.symm h) (sortByDate_perm _)).mpr
    (dedupBy_pairwise Row.date srcs.flatten)

theorem mergeRows_find? (srcs : List (List Row)) (d : Nat) :
    (mergeRows srcs).find? (fun r => r.date == d)
      = srcs.flatten.find? (fun r => r.date == d) := by
  unfold mergeRows
  rw [find?_eq_of_perm_unique Row.date d (sortByDate_perm _).symm
    (dedupBy_pairwise Row.date srcs.flatten)]
  exact find?_dedupBy Row.date d srcs.flatten

theorem mergeRows_mem_date (srcs : List (List Row)) (d : Nat) :
    d ∈ (mergeRows srcs).map Row.date ↔ ∃ l ∈ srcs, ∃ r ∈ l, r.date = d := by
  unfold mergeRows sortByDate
  rw [((List.perm_insertionSort _ _).map Row.date).mem_iff, mem_map_key_dedupBy]
  constructor
  · intro h
    obtain ⟨r, hr, rfl⟩ := List.mem_map.mp h
    obtain ⟨l, hl, hrl⟩ := List.mem_flatten.mp hr
    exact ⟨l, hl, r, hrl, rfl⟩
  · rintro ⟨l, hl, r, hr, rfl⟩
    exact List.mem_map.mpr ⟨r, List.mem_flatten.mpr ⟨l, hl, hr⟩, rfl⟩

theorem dedupBy_eq_self {key : α → Nat} {l : List α}
    (h : l.Pairwise (fun a b => key a ≠ key b)) : dedupBy key l = l :=
  dedupByAux_eq_self key h (fun a _ => List.not_mem_nil (key a))

theorem dedupBy_append_absorb (key : α → Nat) (xs ys : List α)
    (h : ∀ y ∈ ys, ∃ x ∈ xs, key y = key x) : dedupBy key (xs ++ ys) = dedupBy key xs :=
  dedupByAux_append_absorb key xs ys [] (fun y hy => Or.inr (h y hy))

/-! ### Claim theorems about the merge -/

/-- Claim C1: for any date covered by several successful sources, the
merged series retains exactly the row of the highest-priority source
covering it (priority = position in the input sequence).  Writing the
priority-ordered sources as `pre ++ src :: post` where no source in
`pre` covers the date and `r` is `src`'s row at that date, the merged
series' row at that date is `r` and any merged row at that date equals
`r` — never an average and never a lower-priority source's row. -/
theorem merge_priority_rule (pre post : List (List Row)) (src : List Row) (r : Row)
    (hfind : src.find? (fun s => s.date == r.date) = some r)
    (hpre : ∀ l ∈ pre, ∀ s ∈ l, s.date ≠ r.date) :
    (mergeRows (pre ++ src :: post)).find? (fun s => s.date == r.date) = some r ∧
      ∀ s ∈ mergeRows (pre ++ src :: post), s.date = r.date → s = r := by
  have hjoin : (pre ++ src :: post).flatten = pre.flatten ++ (src ++ post.flatten) := by
    rw [List.flatten_append, List.flatten_cons]
  have hnone : ∀ x ∈ pre.flatten, ¬((fun s => s.date == r.date) x = true) := by
    intro x hx hc
    obtain ⟨l, hl, hxl⟩ := List.mem_flatten.mp hx
    exact hpre l hl x hxl (by simpa using hc)
  have hfound : (mergeRows (pre ++ src :: post)).find? (fun s => s.date == r.date) = some r := by
    rw [mergeRows_find?, hjoin, find?_append_of_none hnone]
    exact find?_append_of_some hfind
  refine ⟨hfound, ?_⟩
  intro s hs hsd
  have hrmem : r ∈ mergeRows (pre ++ src :: post) := List.mem_of_find?_eq_some hfound
  exact @eq_of_key_unique _ Row.date _ (mergeRows_pairwise _) _ _ hs hrmem hsd

/-- Witness for C1: Yahoo covers date 1; CryptoCompare and CoinGecko
both cover date 2 with different prices; the merged row at date 2 is
CryptoCompare's. -/
theorem merge_priority_rule_witness :
    (mergeRows [[⟨1, 1, 1⟩], [⟨2, 5, 6⟩], [⟨2, 99, 98⟩]]).find?
        (fun s => s.date == (2 : Nat)) = some ⟨2, 5, 6⟩ ∧
      ∀ s ∈ mergeRows [[⟨1, 1, 1⟩], [⟨2, 5, 6⟩], [⟨2, 99, 98⟩]], s.date = 2 → s = ⟨2, 5, 6⟩ :=
  merge_priority_rule [[⟨1, 1, 1⟩]] [[⟨2, 99, 98⟩]] [⟨2, 5, 6⟩] ⟨2, 5, 6⟩ (by decide) (by decide)

/-- Claim C2: the merged series' date set is exactly the union of the
successful sources' date sets — every date of every successful source
appears, and no other date does. -/
theorem merge_coverage (srcs : List (List Row)) (d : Nat) :
    d ∈ (mergeRows srcs).map Row.date ↔ ∃ l ∈ srcs, ∃ r ∈ l, r.date = d :=
  mergeRows_mem_date srcs d

/-- Claim C3 (amended): the per-source contribution reported by
`merge_sources` is the cardinality of the intersection of the source's
date set with the merged date set; since the merged date set is the
union of all sources' dates, this equals the source's own unique-date
count — not the number of merged rows that originated from the source. -/
theorem contribution_eq_source_dates (srcs : List (List Row)) (l : List Row) (hl : l ∈ srcs) :
    contribution l (mergeRows srcs) = (l.map Row.date).toFinset.card := by
  have hsub : (l.map Row.date).toFinset ⊆ ((mergeRows srcs).map Row.date).toFinset := by
    intro d hd
    rw [List.mem_toFinset] at hd ⊢
    obtain ⟨r, hr, rfl⟩ := List.mem_map.mp hd
    exact (mergeRows_mem_date srcs r.date).mpr ⟨l, hl, r, hr, rfl⟩
  unfold contribution
  rw [Finset.inter_eq_left.mpr hsub]

/-- Witness for C3 (amended) at a one-source merge. -/
theorem contribution_eq_source_dates_witness :
    contribution [⟨1, 2, 3⟩] (mergeRows [[⟨1, 2, 3⟩]])
      = (([⟨1, 2, 3⟩] : List Row).map Row.date).toFinset.card :=
  contribution_eq_source_dates [[⟨1, 2, 3⟩]] [⟨1, 2, 3⟩] (by decide)

/-- Counterexample to C3 as stated: with source A (priority 1) covering
dates 1..3 and source B (priority 2) covering dates 2..5 (the spec's
scenario, as day indices), the code reports B's contribution as
`|dates(B) ∩ dates(merged)| = 4`, while only 2 merged rows (dates 4 and
5) actually originate from B — the claim's asserted value. -/
theorem merge_report_cex :
    contribution [⟨2, 200, 201⟩, ⟨3, 300, 301⟩, ⟨4, 400, 401⟩, ⟨5, 500, 501⟩]
        (mergeRows [[⟨1, 10, 11⟩, ⟨2, 20, 21⟩, ⟨3, 30, 31⟩],
          [⟨2, 200, 201⟩, ⟨3, 300, 301⟩, ⟨4, 400, 401⟩, ⟨5, 500, 501⟩]]) = 4 ∧
      ((mergeRows [[⟨1, 10, 11⟩, ⟨2, 20, 21⟩, ⟨3, 30, 31⟩],
          [⟨2, 200, 201⟩, ⟨3, 300, 301⟩, ⟨4, 400, 401⟩, ⟨5, 500, 501⟩]]).filter
        (fun r => decide (r ∈ ([⟨2, 200, 201⟩, ⟨3, 300, 301⟩, ⟨4, 400, 401⟩,
          ⟨5, 500, 501⟩] : List Row)))).length = 2 ∧
      (4 : Nat) ≠ 2 := by decide

/-- Claim C8: merging a series (with unique, ascending dates, as every
normalized series has) with itself yields the same series. -/
theorem merge_idempotent (s : List Row) (hs : s.Pairwise (fun a b => a.date < b.date)) :
    mergeRows [s, s] = s := by
  unfold mergeRows sortByDate
  have hflat : ([s, s] : List (List Row)).flatten = s ++ s := by simp
  rw [hflat, dedupBy_append_absorb Row.date s s (fun y hy => ⟨y, hy, rfl⟩),
    dedupBy_eq_self (hs.imp (fun h => Nat.ne_of_lt h))]
  have hsorted : List.Sorted (fun a b : Row => a.date ≤ b.date) s :=
    hs.imp (fun h => Nat.le_of_lt h)
  exact hsorted.insertionSort_eq

/-- Witness for C8 on a concrete two-row series. -/
theorem merge_idempotent_witness :
    mergeRows [[⟨1, 10, 11⟩, ⟨3, 12, 13⟩], [⟨1, 10, 11⟩, ⟨3, 12, 13⟩]]
      = [⟨1, 10, 11⟩, ⟨3, 12, 13⟩] :=
  merge_idempotent [⟨1, 10, 11⟩, ⟨3, 12, 13⟩] (by decide)

/-! ### Claim theorems about the adapters -/

theorem cgRowAt_date {payload : List CGRaw} {d : Nat} {r : Row}
    (h : cgRowAt payload d = some r) : r.date = d := by
  unfold cgRowAt at h
  split at h
  · obtain rfl := (Option.some.inj h).symm
    rfl
  · exact Option.noConfusion h

/-- Counterexample to C4 as stated: the Yahoo adapter only drops rows
with missing fields, so a payload with a duplicated date and a negative
`Open` passes through unchanged; the CryptoCompare adapter filters only
on `close > 0`, so a row with negative `Open` survives. -/
theorem adapter_filter_cex :
    yahooNormalize [⟨some 5, some (-3), some 4⟩, ⟨some 5, some 6, some 7⟩]
        = [⟨5, -3, 4⟩, ⟨5, 6, 7⟩] ∧
      ccNormalize [⟨0, -1, 100⟩] = [⟨0, -1, 100⟩] ∧
      ¬(0 : Int) < -3 ∧ ¬(0 : Int) < -1 := by decide

/-- Claim C4 (amended): the guarantees that do hold.  For every raw
payload, the CryptoCompare output has pairwise-distinct dates and only
rows with positive `Close`, and the CoinGecko output has
pairwise-distinct dates.  (Positivity of `Open` is guaranteed by no
adapter, and the Yahoo adapter — which only drops rows with missing
fields — guarantees neither uniqueness nor positivity.) -/
theorem adapter_output_invariants (cc : List CCItem) (cg : List CGRaw) :
    ((ccNormalize cc).Pairwise (fun a b => a.date ≠ b.date) ∧
      ∀ r ∈ ccNormalize cc, 0 < r.Close) ∧
    (cgNormalize cg).Pairwise (fun a b => a.date ≠ b.date) := by
  refine ⟨⟨?_, ?_⟩, ?_⟩
  · exact (List.Perm.pairwise_iff (fun h => Ne.symm h) (sortByDate_perm _)).mpr
      (dedupBy_pairwise Row.date _)
  · intro r hr
    have hr1 : r ∈ dedupBy Row.date (cc.filterMap fun it =>
        if 0 < it.Close then some ⟨it.time / 86400, it.Open, it.Close⟩ else none) :=
      (sortByDate_perm _).mem_iff.mp hr
    obtain ⟨it, _, hmap⟩ := List.mem_filterMap.mp (mem_of_mem_dedupByAux hr1)
    by_cases hpos : 0 < it.Close
    · rw [if_pos hpos] at hmap
      obtain rfl := (Option.some.inj hmap).symm
      exact hpos
    · rw [if_neg hpos] at hmap
      exact Option.noConfusion hmap
  · have hD : (List.insertionSort (fun a b => a ≤ b)
        (dedupBy id (cg.map cgDate))).Pairwise (fun a b => a ≠ b) :=
      (List.Perm.pairwise_iff (fun h => Ne.symm h) (List.perm_insertionSort _ _)).mpr
        (dedupBy_pairwise id _)
    refine List.pairwise_filterMap.mpr (hD.imp ?_)
    intro d d' hdd r hr r' hr'
    rw [cgRowAt_date hr, cgRowAt_date hr']
    exact hdd

/-- Claim C10 (amended): in the CoinGecko adapter, each output row's
`Open` is the price of the first point of its date group in payload
order and `Close` the price of the last; for a singleton group the row
has `Open = Close`.  (Payload order is chronological order only when the
payload is sorted by timestamp.) -/
theorem cg_open_close_payload_order (payload : List CGRaw) (r : Row)
    (hr : r ∈ cgNormalize payload) :
    ((payload.filter fun p => cgDate p == r.date).head?).map CGRaw.price = some r.Open ∧
      ((payload.filter fun p => cgDate p == r.date).getLast?).map CGRaw.price = some r.Close ∧
      ∀ q, (payload.filter fun p => cgDate p == r.date) = [q] → r.Open = r.Close := by
  obtain ⟨d, _, hrow⟩ := List.mem_filterMap.mp hr
  have hdate : r.date = d := cgRowAt_date hrow
  subst hdate
  unfold cgRowAt at hrow
  split at hrow
  next f l h1 h2 =>
    have hOpen : f.price = r.Open := congrArg Row.Open (Option.some.inj hrow)
    have hClose : l.price = r.Close := congrArg Row.Close (Option.some.inj hrow)
    refine ⟨by rw [h1]; exact congrArg some hOpen, by rw [h2]; exact congrArg some hClose, ?_⟩
    intro q hq
    rw [hq] at h1 h2
    have hf : f = q := (Option.some.inj h1).symm
    have hl : l = q := (Option.some.inj (by simpa using h2)).symm
    rw [← hOpen, ← hClose, hf, hl]
  next => exact Option.noConfusion hrow

/-- Witness for C10 (amended) on a singleton payload. -/
theorem cg_open_close_payload_order_witness :
    ((([⟨0, 9⟩] : List CGRaw).filter fun p => cgDate p == (⟨0, 9, 9⟩ : Row).date).head?).map
        CGRaw.price = some (⟨0, 9, 9⟩ : Row).Open ∧
      ((([⟨0, 9⟩] : List CGRaw).filter fun p => cgDate p == (⟨0, 9, 9⟩ : Row).date).getLast?).map
        CGRaw.price = some (⟨0, 9, 9⟩ : Row).Close ∧
      ∀ q, (([⟨0, 9⟩] : List CGRaw).filter fun p => cgDate p == (⟨0, 9, 9⟩ : Row).date) = [q] →
        (⟨0, 9, 9⟩ : Row).Open = (⟨0, 9, 9⟩ : Row).Close :=
  cg_open_close_payload_order [⟨0, 9⟩] ⟨0, 9, 9⟩ (by decide)

/-- Counterexample to C10 as stated: on a payload whose points are not
in chronological order, `Open` is the payload-order first price (5), not
the chronologically first price (7). -/
theorem cg_chron_cex :
    cgNormalize [⟨2000, 5⟩, ⟨1000, 7⟩] = [⟨0, 5, 7⟩] ∧
      chronFirstPrice [⟨2000, 5⟩, ⟨1000, 7⟩] 0 = some 7 ∧ (5 : Int) ≠ 7 := by decide

/-! ### Claim theorems about the sink -/

/-- Counterexample to C5 as stated: a read-back frame whose schema is
not the three expected fields (here, only a `date` column — `Open` and
`Close` missing) raises nothing: the post-write pass performs no schema
comparison, so the run does not fail. -/
theorem validate_no_schema_check :
    validateRaises { cols := ["date"], nrows := 7 } = false ∧
      (["date"] : List String) ≠ ["date", "Open", "Close"] := by decide

/-- Claim C5 (amended): the post-write pass only re-reads the artifact
and prints statistics; it is fatal exactly when the statistics
computation raises — the `date` column is absent or the artifact has
zero data rows.  It never compares the re-read schema or row count
against the in-memory series, and fewer than 365 rows only warns. -/
theorem validate_fatal_iff (t : Frame) :
    validateRaises t = true ↔ ("date" ∉ t.cols ∨ t.nrows = 0) := by
  simp [validateRaises]

/-- Claim C6 (amended): `save_csv` overwrites the destination in place
(truncating write at the destination path, no temporary file or atomic
rename).  On a successful write the full serialization lands and the
run exits 0; a write failing after `k` lines leaves the `k`-line prefix
as the artifact's content — an observable change — while the run exits
non-zero. -/
theorem persist_overwrite (rows : List Row) (w : World) (k : Nat) (h : rows ≠ []) :
    saveCsv (some rows) none w = ({ file := some (serialize rows) }, 0) ∧
      saveCsv (some rows) (some k) w = ({ file := some ((serialize rows).take k) }, 1) := by
  cases rows with
  | nil => exact absurd rfl h
  | cons r rs => exact ⟨rfl, rfl⟩

/-- Witness for C6 (amended) on a one-row series. -/
theorem persist_overwrite_witness :
    saveCsv (some [⟨1, 2, 3⟩]) none { file := none }
        = ({ file := some (serialize [⟨1, 2, 3⟩]) }, 0) ∧
      saveCsv (some [⟨1, 2, 3⟩]) (some 1) { file := none }
        = ({ file := some ((serialize [⟨1, 2, 3⟩]).take 1) }, 1) :=
  persist_overwrite [⟨1, 2, 3⟩] { file := none } 1 (by decide)

/-- Counterexample to C6 as stated: a write that fails after one line
reports failure (exit 1), yet the destination artifact — which held a
previous two-line series — now holds only the new header: persist
reported failure and the artifact observably changed. -/
theorem persist_atomic_cex :
    (saveCsv (some [⟨1, 2, 3⟩]) (some 1)
        { file := some [["date", "Open", "Close"], ["0", "9", "9"]] }).2 = 1 ∧
      (saveCsv (some [⟨1, 2, 3⟩]) (some 1)
          { file := some [["date", "Open", "Close"], ["0", "9", "9"]] }).1
        ≠ { file := some [["date", "Open", "Close"], ["0", "9", "9"]] } := by decide

/-- Claim C7: when zero adapters succeed (every fetch result is `None`
or empty), `merge_sources` signals `NoDataAvailable` by returning
`None`, and `save_csv` — whether handed that `None` or an empty frame —
exits 1 before any write: the destination artifact is returned
unchanged, whatever state the write layer is in. -/
theorem no_data_rejected (results : List (Option (List Row))) (failAt : Option Nat) (w : World)
    (h : ∀ o ∈ results, o = none ∨ o = some ([] : List Row)) :
    mergeSources results = none ∧
      saveCsv (mergeSources results) failAt w = (w, 1) ∧
      saveCsv (some []) failAt w = (w, 1) := by
  have hnil : successfulSources results = [] := by
    unfold successfulSources
    rw [List.filterMap_eq_nil_iff]
    intro o ho
    rcases h o ho with rfl | rfl
    · rfl
    · rfl
  have hm : mergeSources results = none := by
    unfold mergeSources
    rw [hnil]
    rfl
  exact ⟨hm, by rw [hm]; rfl, rfl⟩

/-- Witness for C7: one failed fetch and one empty fetch. -/
theorem no_data_rejected_witness :
    mergeSources [none, some []] = none ∧
      saveCsv (mergeSources [none, some []]) none { file := none } = ({ file := none }, 1) ∧
      saveCsv (some []) none { file := none } = ({ file := none }, 1) :=
  no_data_rejected [none, some []] none { file := none } (by decide)

/-! ### Claim theorems about the pagination loop -/

theorem ccLoop_isSome_of_fuel (resp : Nat → Nat → CCResp) (endD : Nat)
    (H : ∀ cur toTs p ps, resp cur toTs = CCResp.page (p :: ps) →
      cur ≤ ((p :: ps).getLast (List.cons_ne_nil p ps)).time) :
    ∀ (fuel current : Nat) (acc : List CCItem), endD - current < fuel →
      (ccLoop resp endD fuel current acc).isSome = true := by
  intro fuel
  induction fuel with
  | zero => intro current acc hlt; exact absurd hlt (Nat.not_lt_zero _)
  | succ n ih =>
    intro current acc hlt
    rw [ccLoop]
    by_cases hcur : current < endD
    · rw [if_pos hcur]
      cases hresp : resp current (min (current + 2000 * 86400) endD) with
      | failure => rfl
      | page ps =>
        cases ps with
        | nil => rfl
        | cons p ps' =>
          refine ih _ _ ?_
          have hadv : current < ((p :: ps').getLast (List.cons_ne_nil p ps')).time + 86400 :=
            Nat.lt_of_le_of_lt (H current _ p ps' hresp)
              (Nat.lt_add_of_pos_right (by norm_num))
          have h1 : endD - (((p :: ps').getLast (List.cons_ne_nil p ps')).time + 86400)
              < endD - current := Nat.sub_lt_sub_left hcur hadv
          exact Nat.lt_of_lt_of_le h1 (Nat.lt_succ_iff.mp hlt)
    · rw [if_neg hcur]
      rfl

/-- Claim C9 (amended): the pagination loop terminates for every
response function in which each non-empty page's last timestamp is at
least the requested window start: each iteration then advances the
window start by at least one day, so `endD - current + 1` iterations
suffice; the loop stops on an empty page, a non-success response, or
when the window start reaches now (`endD`).  (It does *not* stop merely
because a page holds fewer rows than the 2000-row page size.) -/
theorem ccLoop_terminates (resp : Nat → Nat → CCResp) (endD current : Nat) (acc : List CCItem)
    (H : ∀ cur toTs p ps, resp cur toTs = CCResp.page (p :: ps) →
      cur ≤ ((p :: ps).getLast (List.cons_ne_nil p ps)).time) :
    ∃ v, ccLoop resp endD (endD - current + 1) current acc = some v :=
  Option.isSome_iff_exists.mp
    (ccLoop_isSome_of_fuel resp endD H (endD - current + 1) current acc (Nat.lt_succ_self _))

/-- Witness for C9 (amended): a provider that always reports failure. -/
theorem ccLoop_terminates_witness :
    ∃ v, ccLoop (fun _ _ => CCResp.failure) 259200 (259200 - 0 + 1) 0 [] = some v :=
  ccLoop_terminates (fun _ _ => CCResp.failure) 259200 0 []
    (fun _ _ _ _ h => CCResp.noConfusion h)

/-- A concrete response function for the C9 counterexample: the first
two requested windows each return a single-row page (far fewer than the
2000-row page size) whose last timestamp equals the window start, and
every later request fails. -/
def respCex : Nat → Nat → CCResp := fun cur _ =>
  if cur = 0 then CCResp.page [⟨0, 1, 2⟩]
  else if cur = 86400 then CCResp.page [⟨86400, 3, 4⟩]
  else CCResp.failure

/-- Counterexample to C9 as stated: the claim says the loop stops when a
request returns fewer rows than the requested page size.  Under
`respCex` (which satisfies the claim's own last-timestamp hypothesis)
the first page holds a single row, yet the loop issues another request
and accumulates the second page's row as well — it did not stop. -/
theorem ccLoop_short_page_cex :
    ccLoop respCex 864000 20 0 [] = some [⟨0, 1, 2⟩, ⟨86400, 3, 4⟩] ∧
      ([⟨0, 1, 2⟩, ⟨86400, 3, 4⟩] : List CCItem) ≠ [⟨0, 1, 2⟩] := by decide

